import Mathlib

/-
Verification of the LTC int/float sample conversion routines
(inc/intfloatconversions.h).

The C++ code is templated over a float type F and an integer type I.
Floating-point values are modelled as exact rationals (ℚ); machine
integers as ℤ together with an `IntSpec` descriptor giving the bit
width and signedness of the target type, from which the numeric-limits
values (`min`, `max`) used by the code are derived.  `static_cast` from
a float to an integer is truncation toward zero (`trunc`); the C++ `%`
on int is truncated remainder (`Int.tmod`).  All claimed properties
keep every intermediate value inside the representable range of the
instantiated types, so no wrap-around modelling is needed.
-/

namespace LTC

/-- Descriptor of a fixed-width integer sample type: bit width and
signedness.  Mirrors the `std::numeric_limits` data the templates use. -/
structure IntSpec where
  bits : ℕ
  isUnsigned : Bool

/-- Value of `std::numeric_limits<I>::max()` for the described type. -/
def IntSpec.max (T : IntSpec) : ℤ :=
  if T.isUnsigned then 2 ^ T.bits - 1 else 2 ^ (T.bits - 1) - 1

/-- Value of `std::numeric_limits<I>::min()` for the described type. -/
def IntSpec.min (T : IntSpec) : ℤ :=
  if T.isUnsigned then 0 else -(2 ^ (T.bits - 1))

/-- The `uint8_t` instantiation. -/
def uint8spec : IntSpec := ⟨8, true⟩

/-- The `int16_t` instantiation. -/
def int16spec : IntSpec := ⟨16, false⟩

/-- The `int32_t` instantiation. -/
def int32spec : IntSpec := ⟨32, false⟩

/-- Embedding of `get_zero<T>()`: `(max/2)+1` for unsigned types, else 0. -/
def get_zero (T : IntSpec) : ℤ :=
  if T.isUnsigned then T.max / 2 + 1 else 0

/-- Embedding of `clip_float<T>(value)`. -/
def clip_float (value : ℚ) : ℚ :=
  if value > 1 then 1
  else if value < -1 then -1
  else value

/-- Truncation toward zero: the effect of `static_cast<int>` on a float. -/
def trunc (q : ℚ) : ℤ :=
  if q < 0 then ⌈q⌉ else ⌊q⌋

/-- Embedding of `round_float<T>(value)`.  `truncated`, `remainder` and
`roundValue` are the local variables of the C++ body; the `bool`-to-`int`
conversion of the rounding condition becomes an `if _ then 1 else 0`,
and `!(x % 2)` becomes `Int.tmod x 2 = 0`. -/
def round_float (value : ℚ) : ℚ :=
  let truncated : ℤ := trunc value
  let remainder : ℚ := value - (truncated : ℚ)
  let roundValue : ℤ :=
    if remainder > 1/2 ∨ (remainder = 1/2 ∧ Int.tmod (trunc (value + 1)) 2 = 0)
    then 1 else 0
  ((truncated + (if value < 0 then -roundValue else roundValue) : ℤ) : ℚ)

/-- Embedding of scalar `float_to_int<F, I>(value)`. -/
def float_to_int (T : IntSpec) (value : ℚ) : ℤ :=
  if value = 0 then get_zero T
  else if T.isUnsigned then
    if value < 0 then
      trunc (round_float ((get_zero T : ℚ) + value * (get_zero T : ℚ)))
    else
      trunc (value * ((get_zero T - 1 : ℤ) : ℚ) + (get_zero T : ℚ))
  else if value < 0 then
    trunc (round_float (-value * (T.min : ℚ)))
  else
    trunc (round_float (value * (T.max : ℚ)))

/-- Embedding of scalar `int_to_float<I, F>(value)`. -/
def int_to_float (T : IntSpec) (value : ℤ) : ℚ :=
  if value = get_zero T then 0
  else if T.isUnsigned then
    if value < get_zero T then
      (value : ℚ) / ((get_zero T - 1 : ℤ) : ℚ)
    else
      ((value - get_zero T : ℤ) : ℚ) / (get_zero T : ℚ)
  else if value < 0 then
    (value : ℚ) * (T.max : ℚ)
  else
    (value : ℚ) * (T.min : ℚ)

/-- Embedding of the sequence-returning bulk `float_to_int` (the
`std::vector` overload): a loop over indices `0 ≤ i < length` that
appends the scalar conversion of `values.at(i)`. -/
def float_to_int_vec (T : IntSpec) (values : List ℚ) : List ℤ :=
  (List.range values.length).map (fun i => float_to_int T (values.getD i 0))

/-- Embedding of the sequence-returning bulk `int_to_float` (the
`std::vector` overload). -/
def int_to_float_vec (T : IntSpec) (values : List ℤ) : List ℚ :=
  (List.range values.length).map (fun i => int_to_float T (values.getD i 0))

/-- Round-half-to-even on nonnegative arguments, extracted in closed
form: floor plus an increment when the fractional part exceeds 1/2 or
ties at 1/2 with an even upper neighbour.  `round_float` agrees with
this on nonnegative inputs (`round_float_of_nonneg`). -/
def rhe (q : ℚ) : ℤ :=
  ⌊q⌋ + (if 1/2 < Int.fract q ∨ (Int.fract q = 1/2 ∧ Int.tmod (⌊q⌋ + 1) 2 = 0)
         then 1 else 0)

/-- Evenness via the C++ truncated remainder agrees with evenness via
Euclidean remainder. -/
lemma tmod_two_eq_zero_iff (n : ℤ) : Int.tmod n 2 = 0 ↔ n % 2 = 0 := by
  constructor
  · intro h
    rw [Int.tmod_def] at h
    have h2 : n = 2 * n.tdiv 2 := by linarith
    omega
  · intro h
    exact Int.tmod_eq_zero_of_dvd (by omega)

lemma uint8_unsigned : uint8spec.isUnsigned = true := rfl

lemma int16_signed : int16spec.isUnsigned = false := rfl

lemma max_uint8 : uint8spec.max = 255 := by decide

lemma get_zero_uint8 : get_zero uint8spec = 128 := by decide

lemma get_zero_int16 : get_zero int16spec = 0 := by decide

lemma max_int16 : int16spec.max = 32767 := by decide

lemma min_int16 : int16spec.min = -32768 := by decide

lemma one_le_two_pow_rat (k : ℕ) : (1 : ℚ) ≤ 2 ^ k := by
  calc (1 : ℚ) = 1 ^ k := (one_pow k).symm
  _ ≤ 2 ^ k := pow_le_pow_left₀ (by norm_num) (by norm_num) k

lemma trunc_intCast (n : ℤ) : trunc ((n : ℤ) : ℚ) = n := by
  unfold trunc
  split <;> simp

lemma trunc_of_nonneg {q : ℚ} (h : 0 ≤ q) : trunc q = ⌊q⌋ :=
  if_neg (not_lt.2 h)

lemma trunc_of_nonpos {q : ℚ} (h : q ≤ 0) : trunc q = ⌈q⌉ := by
  unfold trunc
  split
  · rfl
  · have h0 : q = 0 := le_antisymm h (not_lt.1 (by assumption))
    simp [h0]

lemma trunc_mono {q r : ℚ} (h : q ≤ r) : trunc q ≤ trunc r := by
  unfold trunc
  split_ifs with h1 h2
  · exact Int.ceil_le_ceil h
  · have hq : ⌈q⌉ ≤ 0 := by
      rw [show (0 : ℤ) = ⌈(0 : ℚ)⌉ by simp]
      exact Int.ceil_le_ceil h1.le
    have hr : 0 ≤ ⌊r⌋ := Int.floor_nonneg.2 (not_lt.1 h2)
    omega
  · exact absurd (lt_of_le_of_lt h (by assumption)) h1
  · exact Int.floor_le_floor h

lemma rhe_bounds (q : ℚ) : ⌊q⌋ ≤ rhe q ∧ rhe q ≤ ⌊q⌋ + 1 := by
  unfold rhe
  split <;> omega

lemma rhe_mono {q r : ℚ} (h : q ≤ r) : rhe q ≤ rhe r := by
  rcases lt_or_le ⌊q⌋ ⌊r⌋ with hf | hf
  · have h1 := (rhe_bounds q).2
    have h2 := (rhe_bounds r).1
    omega
  · have hfe : ⌊q⌋ = ⌊r⌋ := le_antisymm (Int.floor_le_floor h) hf
    have hfr : Int.fract q ≤ Int.fract r := by
      unfold Int.fract
      rw [hfe]
      linarith
    unfold rhe
    rw [hfe]
    split_ifs with hc1 hc2 hc2 <;> try omega
    exfalso
    apply hc2
    rcases hc1 with hgt | ⟨heq, hpar⟩
    · exact Or.inl (lt_of_lt_of_le hgt hfr)
    · rcases lt_or_eq_of_le (heq ▸ hfr) with hlt | hq
      · exact Or.inl hlt
      · exact Or.inr ⟨hq.symm, hpar⟩

lemma round_float_of_nonneg {q : ℚ} (h : 0 ≤ q) : round_float q = (rhe q : ℚ) := by
  unfold round_float rhe
  have ht : trunc q = ⌊q⌋ := trunc_of_nonneg h
  have ht1 : trunc (q + 1) = ⌊q⌋ + 1 := by
    rw [trunc_of_nonneg (by linarith)]
    rw [show q + 1 = q + ((1 : ℤ) : ℚ) by norm_num]
    rw [Int.floor_add_int]
  have hfr : q - ((⌊q⌋ : ℤ) : ℚ) = Int.fract q := (Int.self_sub_floor q).symm
  simp only [ht, ht1, hfr, if_neg (not_lt.2 h)]

lemma round_float_of_nonpos {q : ℚ} (h : q ≤ 0) : round_float q = (⌈q⌉ : ℚ) := by
  unfold round_float
  have ht : trunc q = ⌈q⌉ := trunc_of_nonpos h
  have hrem : q - ((⌈q⌉ : ℤ) : ℚ) ≤ 0 := by
    have := Int.le_ceil q
    linarith
  have hcond : ¬(q - ((⌈q⌉ : ℤ) : ℚ) > 1/2
      ∨ (q - ((⌈q⌉ : ℤ) : ℚ) = 1/2 ∧ Int.tmod (trunc (q + 1)) 2 = 0)) := by
    push_neg
    constructor
    · linarith
    · intro habs
      exfalso
      rw [habs] at hrem
      norm_num at hrem
  simp only [ht, if_neg hcond]
  split <;> norm_num

lemma round_float_intCast (n : ℤ) : round_float ((n : ℤ) : ℚ) = (n : ℚ) := by
  rcases le_or_lt 0 n with h | h
  · rw [round_float_of_nonneg (by exact_mod_cast h)]
    norm_num [rhe, Int.fract_intCast]
  · rw [round_float_of_nonpos (by exact_mod_cast h.le)]
    norm_num

lemma trunc_round_float_of_nonneg {q : ℚ} (h : 0 ≤ q) :
    trunc (round_float q) = rhe q := by
  rw [round_float_of_nonneg h, trunc_intCast]

lemma trunc_round_float_of_nonpos {q : ℚ} (h : q ≤ 0) :
    trunc (round_float q) = ⌈q⌉ := by
  rw [round_float_of_nonpos h, trunc_intCast]

lemma max_nonneg (T : IntSpec) : 0 ≤ T.max := by
  unfold IntSpec.max
  have h1 : (0 : ℤ) < 2 ^ T.bits := pow_pos (by norm_num) _
  have h2 : (0 : ℤ) < 2 ^ (T.bits - 1) := pow_pos (by norm_num) _
  split <;> omega

lemma min_signed (T : IntSpec) (hU : T.isUnsigned = false) :
    T.min = -(2 ^ (T.bits - 1)) := by
  simp [IntSpec.min, hU]

lemma max_signed (T : IntSpec) (hU : T.isUnsigned = false) :
    T.max = 2 ^ (T.bits - 1) - 1 := by
  simp [IntSpec.max, hU]

lemma get_zero_signed (T : IntSpec) (hU : T.isUnsigned = false) :
    get_zero T = 0 := by
  simp [get_zero, hU]

lemma get_zero_pos (T : IntSpec) (hU : T.isUnsigned = true) :
    1 ≤ get_zero T := by
  unfold get_zero
  rw [if_pos hU]
  have h := Int.ediv_nonneg (max_nonneg T) (by norm_num : (0:ℤ) ≤ 2)
  omega

lemma get_zero_unsigned_eq (T : IntSpec) (hU : T.isUnsigned = true)
    (hb : 1 ≤ T.bits) : get_zero T = 2 ^ (T.bits - 1) := by
  unfold get_zero IntSpec.max
  rw [if_pos hU, if_pos hU]
  have h : (2 : ℤ) ^ T.bits = 2 * 2 ^ (T.bits - 1) := by
    rw [← pow_succ']
    congr 1
    omega
  omega

lemma f2i_zero (T : IntSpec) : float_to_int T 0 = get_zero T := by
  unfold float_to_int
  rw [if_pos rfl]

lemma f2i_unsigned_neg (T : IntSpec) (hU : T.isUnsigned = true) (v : ℚ)
    (h1v : -1 ≤ v) (hv : v < 0) :
    float_to_int T v = rhe ((get_zero T : ℚ) + v * (get_zero T : ℚ)) := by
  have hzQ : (1 : ℚ) ≤ (get_zero T : ℚ) := by exact_mod_cast get_zero_pos T hU
  unfold float_to_int
  rw [if_neg hv.ne, if_pos hU, if_pos hv]
  apply trunc_round_float_of_nonneg
  nlinarith [mul_nonneg (by linarith : (0:ℚ) ≤ (get_zero T : ℚ))
    (by linarith : (0:ℚ) ≤ 1 + v)]

lemma f2i_unsigned_pos (T : IntSpec) (hU : T.isUnsigned = true) (v : ℚ)
    (hv : 0 < v) :
    float_to_int T v = ⌊v * ((get_zero T : ℚ) - 1) + (get_zero T : ℚ)⌋ := by
  have hzQ : (1 : ℚ) ≤ (get_zero T : ℚ) := by exact_mod_cast get_zero_pos T hU
  unfold float_to_int
  rw [if_neg hv.ne', if_pos hU, if_neg (not_lt.2 hv.le)]
  rw [show ((get_zero T - 1 : ℤ) : ℚ) = (get_zero T : ℚ) - 1 by push_cast; ring]
  have h1 : 0 ≤ v * ((get_zero T : ℚ) - 1) := mul_nonneg hv.le (by linarith)
  exact trunc_of_nonneg (by linarith)

lemma f2i_signed_neg (T : IntSpec) (hU : T.isUnsigned = false) (v : ℚ)
    (hv : v < 0) :
    float_to_int T v = ⌈v * ((2 : ℚ) ^ (T.bits - 1))⌉ := by
  unfold float_to_int
  rw [if_neg hv.ne, if_neg (by simp [hU]), if_pos hv]
  have hminQ : (T.min : ℚ) = -((2 : ℚ) ^ (T.bits - 1)) := by
    rw [min_signed T hU]
    push_cast
    ring
  rw [hminQ, show -v * -((2 : ℚ) ^ (T.bits - 1)) = v * (2 : ℚ) ^ (T.bits - 1) by ring]
  exact trunc_round_float_of_nonpos
    (mul_nonpos_iff.2 (Or.inr ⟨hv.le, by positivity⟩))

lemma f2i_signed_pos (T : IntSpec) (hU : T.isUnsigned = false) (v : ℚ)
    (hv : 0 < v) :
    float_to_int T v = rhe (v * (T.max : ℚ)) := by
  unfold float_to_int
  rw [if_neg hv.ne', if_neg (by simp [hU]), if_neg (not_lt.2 hv.le)]
  exact trunc_round_float_of_nonneg
    (mul_nonneg hv.le (by exact_mod_cast max_nonneg T))

/-- C1: the claimed lossless integer round trip fails on the code.  For
the `uint8_t` instantiation, the integer 255 converts to float 127/128
and back to 254, not 255 (the inverse conversion divides by
`zero_point - 1` below the zero point and multiplies by `max`/`min` for
signed types, neither of which inverts the forward mapping). -/
theorem c1_uint8_roundtrip_fails :
    float_to_int uint8spec (int_to_float uint8spec 255) = 254
    ∧ float_to_int uint8spec (int_to_float uint8spec 255) ≠ 255 := by
  have h1 : int_to_float uint8spec 255 = 127/128 := by
    norm_num [int_to_float, get_zero_uint8, uint8_unsigned]
  rw [h1]
  norm_num [float_to_int, get_zero_uint8, uint8_unsigned, trunc]

/-- C2: converting float 0.0 yields exactly the type's zero point, and
converting the zero point back yields exactly 0.0, for every integer
type descriptor: both directions short-circuit at silence. -/
theorem c2_silence_roundtrip (T : IntSpec) :
    float_to_int T 0 = get_zero T ∧ int_to_float T (get_zero T) = 0 := by
  constructor
  · unfold float_to_int
    rw [if_pos rfl]
  · unfold int_to_float
    rw [if_pos rfl]

/-- C3: the float-domain extremes map onto the full integer range:
`float_to_int 1.0` is the type's maximum and `float_to_int (-1.0)` is
the type's minimum (which is 0 for unsigned types), for every integer
type of at least one bit. -/
theorem c3_full_range (T : IntSpec) (hb : 1 ≤ T.bits) :
    float_to_int T 1 = T.max ∧ float_to_int T (-1) = T.min := by
  rcases Bool.eq_false_or_eq_true T.isUnsigned with hU | hU
  case inr =>
    constructor
    · unfold float_to_int
      rw [if_neg (by norm_num), if_neg (by simp [hU]), if_neg (by norm_num)]
      rw [show (1 : ℚ) * (T.max : ℚ) = ((T.max : ℤ) : ℚ) by ring]
      rw [round_float_intCast, trunc_intCast]
    · unfold float_to_int
      rw [if_neg (by norm_num), if_neg (by simp [hU]), if_pos (by norm_num)]
      rw [show -(-1 : ℚ) * (T.min : ℚ) = ((T.min : ℤ) : ℚ) by ring]
      rw [round_float_intCast, trunc_intCast]
  case inl =>
    have hz := get_zero_unsigned_eq T hU hb
    have hmax : T.max = 2 * 2 ^ (T.bits - 1) - 1 := by
      unfold IntSpec.max
      rw [if_pos hU]
      have h : (2 : ℤ) ^ T.bits = 2 * 2 ^ (T.bits - 1) := by
        rw [← pow_succ']
        congr 1
        omega
      omega
    constructor
    · unfold float_to_int
      rw [if_neg (by norm_num), if_pos hU, if_neg (by norm_num)]
      rw [show (1 : ℚ) * ((get_zero T - 1 : ℤ) : ℚ) + (get_zero T : ℚ)
            = ((2 * get_zero T - 1 : ℤ) : ℚ) by push_cast; ring]
      rw [trunc_intCast, hz, hmax]
    · unfold float_to_int
      rw [if_neg (by norm_num), if_pos hU, if_pos (by norm_num)]
      rw [show (get_zero T : ℚ) + (-1 : ℚ) * (get_zero T : ℚ) = ((0 : ℤ) : ℚ) by
        push_cast; ring]
      rw [round_float_intCast, trunc_intCast]
      unfold IntSpec.min
      rw [if_pos hU]

/-- Witness for C3 at the `uint8_t` instantiation. -/
theorem c3_full_range_witness :
    1 ≤ uint8spec.bits
    ∧ (float_to_int uint8spec 1 = uint8spec.max
       ∧ float_to_int uint8spec (-1) = uint8spec.min) :=
  ⟨by decide, c3_full_range uint8spec (by decide)⟩

/-- C4: the claimed one-quantization-step round-trip bound fails on the
code.  For `int16_t` at input 0.5, `float_to_int` gives 16384, and the
broken inverse multiplies by `min`, giving -536870912.0, about half a
billion quantization steps away from 0.5. -/
theorem c4_int16_roundtrip_error_huge :
    int_to_float int16spec (float_to_int int16spec (1/2)) = -536870912
    ∧ ¬ |int_to_float int16spec (float_to_int int16spec (1/2)) - 1/2|
        ≤ 1/65535 := by
  have h1 : float_to_int int16spec (1/2) = 16384 := by
    norm_num [float_to_int, get_zero_int16, max_int16, int16_signed, round_float,
      trunc, tmod_two_eq_zero_iff]
  have h2 : int_to_float int16spec 16384 = -536870912 := by
    norm_num [int_to_float, get_zero_int16, min_int16, int16_signed]
  rw [h1, h2]
  refine ⟨rfl, ?_⟩
  rw [show (-536870912 : ℚ) - 1/2 = -(1073741825/2) by norm_num, abs_neg,
    abs_of_pos (by norm_num)]
  norm_num

/-- C5: the claimed negative-branch inverse `value / |min_value|` fails
on the code: for `int16_t` at value -1 the code returns
`(-1) * max = -32767.0`, far outside [-1.0, 0.0), instead of the
claimed -1/32768. -/
theorem c5_int16_negative_branch_wrong :
    int_to_float int16spec (-1) = -32767
    ∧ int_to_float int16spec (-1) < -1
    ∧ int_to_float int16spec (-1) ≠ -(1/32768) := by
  norm_num [int_to_float, get_zero_int16, max_int16, int16_signed]

/-- C6: the positive tie-breaking examples hold, but symmetry around
zero fails: `round_float` truncates every negative input toward zero
(the remainder of a negative value is nonpositive, so the rounding
increment is never taken), so `round_float (-3/2) = -1`, not the -2
required by round-half-to-even symmetry. -/
theorem c6_round_float_negative_not_symmetric :
    round_float (1/2) = 0 ∧ round_float (3/2) = 2 ∧ round_float (5/2) = 2
    ∧ round_float (-3/2) = -1 ∧ round_float (-3/2) ≠ -2 := by
  norm_num [round_float, trunc, tmod_two_eq_zero_iff, Int.ceil_neg]

/-- C7 counterexample: for the `uint8_t` target at input 1/128 the code
returns 128 while round-half-to-even of `v * (zero_point - 1) +
zero_point = 128 + 127/128` is 129: the unsigned non-negative branch
does not round. -/
theorem c7_unsigned_branch_not_rounded :
    ¬ ((float_to_int uint8spec (1/128) : ℚ)
      = round_float ((1/128) * ((get_zero uint8spec : ℚ) - 1)
          + (get_zero uint8spec : ℚ))) := by
  norm_num [float_to_int, get_zero_uint8, max_uint8, uint8_unsigned, round_float,
    trunc, tmod_two_eq_zero_iff]

/-- C7 amended: for an unsigned target and positive input `v`, the code
returns the truncation (floor, the argument being nonnegative) of
`v * (zero_point - 1) + zero_point`, not its round-half-to-even. -/
theorem c7_unsigned_pos_is_floor (T : IntSpec) (hU : T.isUnsigned = true)
    (v : ℚ) (hv : 0 < v) :
    float_to_int T v = ⌊v * ((get_zero T : ℚ) - 1) + (get_zero T : ℚ)⌋ :=
  f2i_unsigned_pos T hU v hv

/-- Witness for the amended C7 at `uint8_t`, input 1/128. -/
theorem c7_unsigned_pos_is_floor_witness :
    uint8spec.isUnsigned = true ∧ (0 : ℚ) < 1/128
    ∧ float_to_int uint8spec (1/128)
      = ⌊(1/128 : ℚ) * ((get_zero uint8spec : ℚ) - 1) + (get_zero uint8spec : ℚ)⌋ :=
  ⟨rfl, by norm_num, c7_unsigned_pos_is_floor uint8spec rfl (1/128) (by norm_num)⟩

/-- C10: for every unsigned type descriptor, integer code 0 converts to
exactly 0.0 (the below-zero-point branch computes `0 / (zero_point - 1)
= 0`), and 0 is indeed the code `float_to_int` assigns to -1.0. -/
theorem c10_unsigned_zero_code_to_silence (T : IntSpec)
    (hU : T.isUnsigned = true) :
    int_to_float T 0 = 0 ∧ float_to_int T (-1) = 0 := by
  have hz := get_zero_pos T hU
  constructor
  · unfold int_to_float
    rw [if_neg (by omega), if_pos hU, if_pos (by omega)]
    push_cast
    simp
  · unfold float_to_int
    rw [if_neg (by norm_num), if_pos hU, if_pos (by norm_num)]
    rw [show (get_zero T : ℚ) + (-1 : ℚ) * (get_zero T : ℚ) = ((0 : ℤ) : ℚ) by
      push_cast; ring]
    rw [round_float_intCast, trunc_intCast]

/-- Witness for C10 at the `uint8_t` instantiation. -/
theorem c10_unsigned_zero_code_to_silence_witness :
    uint8spec.isUnsigned = true
    ∧ (int_to_float uint8spec 0 = 0 ∧ float_to_int uint8spec (-1) = 0) :=
  ⟨rfl, c10_unsigned_zero_code_to_silence uint8spec rfl⟩

/-- C8: `float_to_int` is monotone on the clamped domain [-1, 1] for
every integer type descriptor, across the negative, zero and positive
branches. -/
theorem c8_float_to_int_monotone (T : IntSpec) (f1 f2 : ℚ) (hl : -1 ≤ f1)
    (h12 : f1 < f2) (hr : f2 ≤ 1) :
    float_to_int T f1 ≤ float_to_int T f2 := by
  rcases Bool.eq_false_or_eq_true T.isUnsigned with hU | hU
  case inl =>
    have hzQ : (1 : ℚ) ≤ (get_zero T : ℚ) := by exact_mod_cast get_zero_pos T hU
    rcases lt_trichotomy f1 0 with hf1 | hf1 | hf1 <;>
      rcases lt_trichotomy f2 0 with hf2 | hf2 | hf2
    · rw [f2i_unsigned_neg T hU f1 hl hf1, f2i_unsigned_neg T hU f2 (by linarith) hf2]
      apply rhe_mono
      nlinarith [mul_nonneg (sub_nonneg.2 h12.le)
        (by linarith : (0:ℚ) ≤ (get_zero T : ℚ))]
    · rw [f2i_unsigned_neg T hU f1 hl hf1, hf2, f2i_zero]
      have harg : (get_zero T : ℚ) + f1 * (get_zero T : ℚ) < (get_zero T : ℚ) := by
        nlinarith [mul_pos (neg_pos.2 hf1) (by linarith : (0:ℚ) < (get_zero T : ℚ))]
      have hfl : ⌊(get_zero T : ℚ) + f1 * (get_zero T : ℚ)⌋ < get_zero T :=
        Int.floor_lt.2 harg
      have hb := (rhe_bounds ((get_zero T : ℚ) + f1 * (get_zero T : ℚ))).2
      omega
    · rw [f2i_unsigned_neg T hU f1 hl hf1, f2i_unsigned_pos T hU f2 hf2]
      have harg : (get_zero T : ℚ) + f1 * (get_zero T : ℚ) < (get_zero T : ℚ) := by
        nlinarith [mul_pos (neg_pos.2 hf1) (by linarith : (0:ℚ) < (get_zero T : ℚ))]
      have hfl : ⌊(get_zero T : ℚ) + f1 * (get_zero T : ℚ)⌋ < get_zero T :=
        Int.floor_lt.2 harg
      have hb := (rhe_bounds ((get_zero T : ℚ) + f1 * (get_zero T : ℚ))).2
      have hge : get_zero T ≤ ⌊f2 * ((get_zero T : ℚ) - 1) + (get_zero T : ℚ)⌋ := by
        apply Int.le_floor.2
        have h2 : 0 ≤ f2 * ((get_zero T : ℚ) - 1) := mul_nonneg hf2.le (by linarith)
        linarith
      omega
    · linarith
    · linarith
    · rw [hf1, f2i_zero, f2i_unsigned_pos T hU f2 hf2]
      apply Int.le_floor.2
      have h2 : 0 ≤ f2 * ((get_zero T : ℚ) - 1) := mul_nonneg hf2.le (by linarith)
      linarith
    · linarith
    · linarith
    · rw [f2i_unsigned_pos T hU f1 hf1, f2i_unsigned_pos T hU f2 hf2]
      apply Int.floor_le_floor
      nlinarith [mul_nonneg (sub_nonneg.2 h12.le)
        (by linarith : (0:ℚ) ≤ (get_zero T : ℚ) - 1)]
  case inr =>
    have hcQ : (0 : ℚ) < 2 ^ (T.bits - 1) := by positivity
    have hmaxQ : (0 : ℚ) ≤ (T.max : ℚ) := by exact_mod_cast max_nonneg T
    have hz0 : get_zero T = 0 := get_zero_signed T hU
    rcases lt_trichotomy f1 0 with hf1 | hf1 | hf1 <;>
      rcases lt_trichotomy f2 0 with hf2 | hf2 | hf2
    · rw [f2i_signed_neg T hU f1 hf1, f2i_signed_neg T hU f2 hf2]
      apply Int.ceil_le_ceil
      nlinarith [mul_nonneg (sub_nonneg.2 h12.le) hcQ.le]
    · rw [f2i_signed_neg T hU f1 hf1, hf2, f2i_zero, hz0]
      apply Int.ceil_le.2
      push_cast
      nlinarith [mul_nonneg (neg_nonneg.2 hf1.le) hcQ.le]
    · rw [f2i_signed_neg T hU f1 hf1, f2i_signed_pos T hU f2 hf2]
      have h1 : ⌈f1 * (2 : ℚ) ^ (T.bits - 1)⌉ ≤ 0 := by
        apply Int.ceil_le.2
        push_cast
        nlinarith [mul_nonneg (neg_nonneg.2 hf1.le) hcQ.le]
      have h2 : 0 ≤ ⌊f2 * (T.max : ℚ)⌋ :=
        Int.floor_nonneg.2 (mul_nonneg hf2.le hmaxQ)
      have h3 := (rhe_bounds (f2 * (T.max : ℚ))).1
      omega
    · linarith
    · linarith
    · rw [hf1, f2i_zero, hz0, f2i_signed_pos T hU f2 hf2]
      have h2 : 0 ≤ ⌊f2 * (T.max : ℚ)⌋ :=
        Int.floor_nonneg.2 (mul_nonneg hf2.le hmaxQ)
      have h3 := (rhe_bounds (f2 * (T.max : ℚ))).1
      omega
    · linarith
    · linarith
    · rw [f2i_signed_pos T hU f1 hf1, f2i_signed_pos T hU f2 hf2]
      exact rhe_mono (by nlinarith [mul_nonneg (sub_nonneg.2 h12.le) hmaxQ])

/-- Witness for C8 at the `uint8_t` instantiation, inputs -1/2 < 1/2. -/
theorem c8_float_to_int_monotone_witness :
    (-1 : ℚ) ≤ -1/2 ∧ (-1/2 : ℚ) < 1/2 ∧ (1/2 : ℚ) ≤ 1
    ∧ float_to_int uint8spec (-1/2) ≤ float_to_int uint8spec (1/2) :=
  ⟨by norm_num, by norm_num, by norm_num,
    c8_float_to_int_monotone uint8spec (-1/2) (1/2) (by norm_num) (by norm_num)
      (by norm_num)⟩

lemma range_length_map_getD {α β : Type _} (f : α → β) (d : α) (l : List α) :
    (List.range l.length).map (fun i => f (l.getD i d)) = l.map f := by
  induction l with
  | nil => simp
  | cons a t ih =>
    simp only [List.length_cons, List.range_succ_eq_map, List.map_cons,
      List.map_map, List.getD_cons_zero]
    have hfun : ((fun i => f ((a :: t).getD i d)) ∘ Nat.succ)
        = (fun i => f (t.getD i d)) := by
      funext i
      simp [Function.comp, Nat.succ_eq_add_one, List.getD_cons_succ]
    rw [hfun, ih]

/-- C9: the sequence-returning bulk conversions are exactly the
element-wise maps of the scalar conversions, for input lists of any
length (in particular 0, 1, and N). -/
theorem c9_bulk_is_elementwise_map (T : IntSpec) (fs : List ℚ) (zs : List ℤ) :
    float_to_int_vec T fs = fs.map (float_to_int T)
    ∧ int_to_float_vec T zs = zs.map (int_to_float T) :=
  ⟨range_length_map_getD (float_to_int T) 0 fs,
   range_length_map_getD (int_to_float T) 0 zs⟩

end LTC
